import Mathlib

/-!
Verification of the incremental-backup tree merge from
cmd/restic/cmd_incremental.go (functions addNode, makeTree, runIncremental)
and cmd/restic/include.go (includePatternOptions.Empty).

Strings are modelled as lists of characters (Go strings are byte sequences;
the lexicographic orders agree).  Storage identifiers are modelled as the
canonical serialization of the object they name, which makes the identifier
a pure function of object contents exactly as the content-addressed store
guarantees.  The repository state is threaded explicitly; a load log is kept
so that statements about which trees are read can be expressed.
-/

namespace Restic

abbrev Str := List Char

/-- Conversion from string literals, for concrete test inputs. -/
def str (s : String) : Str := s.toList

/-! ## Go path helpers: filepath.Clean, filepath.Dir, filepath.Base -/

/-- Components of a path, split at every slash character. -/
def splitSlash (p : Str) : List Str := p.splitOn '/'

/-- One step of the lexical simplification loop of Go filepath.Clean:
empty and dot components vanish, a dot-dot component pops the previous
component unless there is none (kept when relative, dropped when rooted)
or the previous one is itself a dot-dot. -/
def cleanStep (rooted : Bool) (acc : List Str) (c : Str) : List Str :=
  if c = [] ∨ c = ['.'] then acc
  else if c = ['.', '.'] then
    match acc with
    | [] => if rooted then [] else [['.', '.']]
    | a :: as => if a = ['.', '.'] then c :: acc else as
  else c :: acc

/-- Go filepath.Clean for unix paths. -/
def goClean (p : Str) : Str :=
  if p = [] then ['.']
  else
    let rooted : Bool := match p.head? with | some '/' => true | _ => false
    let out := ((splitSlash p).foldl (cleanStep rooted) []).reverse
    if out = [] then (if rooted then ['/'] else ['.'])
    else (if rooted then ['/'] else []) ++ List.intercalate ['/'] out

/-- Go filepath.Dir: everything up to the last slash, cleaned. -/
def goDir (p : Str) : Str := goClean ((p.reverse.dropWhile (fun c => c ≠ '/')).reverse)

/-- Go filepath.Base: the last path element, after trailing slashes are removed. -/
def goBase (p : Str) : Str :=
  if p = [] then ['.']
  else
    let q := (p.reverse.dropWhile (fun c => c = '/')).reverse
    if q = [] then ['/']
    else (q.reverse.takeWhile (fun c => c ≠ '/')).reverse

theorem goDir_slash_a : goDir (str "/a") = str "/" := by decide

theorem goDir_nested : goDir (str "/x/c") = str "/x" := by decide

theorem goBase_slash_a : goBase (str "/a") = str "a" := by decide

theorem goBase_nested : goBase (str "/x/c") = str "c" := by decide

/-- Bridge between the executable beginning-of-string test and the
propositional one. -/
theorem pfxIff {a b : Str} : a.isPrefixOf b = true ↔ a <+: b :=
  List.isPrefixOf_iff_prefix


/-! ## Data model: nodes, trees, repository state, filesystem -/

/-- Modelled from the spec: filesystem metadata for one path as returned by
stat (section 6, statAndBuildNode); the type (file or directory) and the
remaining metadata, abstracted into one number. -/
structure FInfo where
  typ : Str
  md : Nat
deriving DecidableEq

/-- The filesystem, as a finite table from absolute path to stat data; a
missing entry is a NotFound stat error. -/
abbrev Fs := List (Str × FInfo)

/-- One directory entry (restic.Node): name, type, metadata and, for
directories, the identifier of the child tree.  Identifiers are canonical
serializations, so an identifier is a pure function of object contents. -/
structure Node where
  name : Str
  typ : Str
  md : Nat
  subtree : Option Str
deriving DecidableEq

/-- A tree is the ordered list of its nodes (restic.Tree.Nodes). -/
abbrev Tree := List Node

/-- Node type tag for directories. -/
def dirT : Str := str "dir"

/-- Association-list lookup used for the store and the filesystem table. -/
def lk {β : Type} : List (Str × β) → Str → Option β
  | [], _ => none
  | (a, b) :: r, k => if a = k then some b else lk r k

/-- Decimal digits of a number, for the canonical serialization. -/
def natChars (n : Nat) : Str := Nat.toDigits 10 n

/-- Canonical serialization of one node. -/
def serializeNode (n : Node) : Str :=
  n.name ++ '|' :: n.typ ++ '|' :: natChars n.md ++ '|' ::
    (match n.subtree with
     | none => ['N']
     | some s => 'S' :: s) ++ [';']

/-- Canonical serialization of a tree; doubles as its content identifier. -/
def serializeTree (t : Tree) : Str :=
  '[' :: (t.foldr (fun n acc => serializeNode n ++ acc) [']'])

/-- Errors of the merge: a stat NotFound, a duplicate tree entry on insert,
and a missing tree object in the store. -/
inductive MErr where
  | notFound
  | duplicate
  | treeMissing
deriving DecidableEq

deriving instance DecidableEq for Except

/-- Repository state: the content-addressed tree store, the unpacked blobs
written via SaveUnpacked (newest first), and a log of the tree identifiers
passed to LoadTree (newest first; instrumentation, written by no operation
but LoadTree). -/
structure St where
  trees : List (Str × Tree)
  unpacked : List Str
  loads : List Str
deriving DecidableEq

/-- restic.LoadTree: look the identifier up in the store, recording the read
in the load log. -/
def loadTree (st : St) (id : Str) : St × Except MErr Tree :=
  let st' : St := { st with loads := id :: st.loads }
  match lk st.trees id with
  | some t => (st', .ok t)
  | none => (st', .error .treeMissing)

/-- restic.SaveTree: the identifier is the canonical serialization; a blob
already present in the store is not written again (deduplication). -/
def saveTree (st : St) (t : Tree) : St × Str :=
  let id := serializeTree t
  match lk st.trees id with
  | some _ => (st, id)
  | none => ({ st with trees := (id, t) :: st.trees }, id)

/-- repo.SaveUnpacked: append the encoded blob unconditionally. -/
def saveUnpacked (st : St) (s : Str) : St :=
  { st with unpacked := s :: st.unpacked }

/-- Modelled from the spec: Tree insert (section 4.1) places the node at its
sorted position and fails with DuplicateEntry when a node of that name is
already present; the restic Tree container itself is not among the given
sources. -/
def insertNode (n : Node) : Tree → Except MErr Tree
  | [] => .ok [n]
  | m :: rest =>
    if n.name < m.name then .ok (n :: m :: rest)
    else if n.name = m.name then .error .duplicate
    else
      match insertNode n rest with
      | .error e => .error e
      | .ok rest' => .ok (m :: rest')

/-- Modelled from the spec: statAndBuildNode (section 6); restic's
NodeFromFileInfo takes the entry name from the stat data, which is the base
name of the path, and never sets a subtree. -/
def mkNode (p : Str) (fi : FInfo) : Node :=
  { name := goBase p, typ := fi.typ, md := fi.md, subtree := none }

/-- addNode from cmd_incremental.go: stat the path (NotFound aborts), build
the node, insert it into the tree under construction (duplicate aborts) and
append it to the JSON builder. -/
def addNode (fs : Fs) (p : Str) (tb : List Node) (tr : Tree) :
    Except MErr (List Node × Tree) :=
  match lk fs p with
  | none => .error .notFound
  | some fi =>
    match insertNode (mkNode p fi) tr with
    | .error e => .error e
    | .ok tr' => .ok (tb ++ [mkNode p fi], tr')

/-- Propagate a result of the path loop while putting the processed entry
back in front of the remaining flag list. -/
def consFlag (h : Str × Bool) :
    Except MErr (List (Str × Bool) × Bool × List Node × Tree) →
    Except MErr (List (Str × Bool) × Bool × List Node × Tree)
  | .error e => .error e
  | .ok (fl, s, b, t) => .ok (h :: fl, s, b, t)

/-- The inner path loop of makeTree, one run per node of the prior tree:
walks the flagged include paths in order, skipping removed and blank
entries; a path equal to the node's full path marks the node skipped and is
either a deletion (path gone from the filesystem: nothing else happens and
the flag stays clear) or a modification (a fresh node is added and the flag
is set); any further live path is added before the current node when the
node is already skipped or when the path is a sibling whose base name sorts
before the node's name. -/
def innerLoop (fs : Fs) (dir : Str) (node : Node) :
    List (Str × Bool) → Bool → List Node → Tree →
    Except MErr (List (Str × Bool) × Bool × List Node × Tree)
  | [], sk, tb, tr => .ok ([], sk, tb, tr)
  | (p, rm) :: rest, sk, tb, tr =>
    if rm then consFlag (p, rm) (innerLoop fs dir node rest sk tb tr)
    else if p = [] then consFlag (p, rm) (innerLoop fs dir node rest sk tb tr)
    else if dir ++ node.name = p then
      match lk fs p with
      | none => consFlag (p, rm) (innerLoop fs dir node rest true tb tr)
      | some _ =>
        match addNode fs p tb tr with
        | .error e => .error e
        | .ok (tb', tr') => consFlag (p, true) (innerLoop fs dir node rest true tb' tr')
    else if sk = true ∨ (goDir (dir ++ node.name) = goDir p ∧ goBase p < node.name) then
      match addNode fs p tb tr with
      | .error e => .error e
      | .ok (tb', tr') => consFlag (p, true) (innerLoop fs dir node rest sk tb' tr')
    else consFlag (p, rm) (innerLoop fs dir node rest sk tb tr)

/-- The end-of-tree scan of makeTree, run after the last node when that node
is an unskipped directory: every remaining key whose parent directory equals
the parent of the node's full path is added at the end. -/
def appendLoop (fs : Fs) (dirNodePath : Str) :
    List Str → List Node → Tree → Except MErr (List Node × Tree)
  | [], tb, tr => .ok (tb, tr)
  | p :: rest, tb, tr =>
    if goDir dirNodePath = goDir p then
      match addNode fs p tb tr with
      | .error e => .error e
      | .ok (tb', tr') => appendLoop fs dirNodePath rest tb' tr'
    else appendLoop fs dirNodePath rest tb tr

/-- Insertion into a sorted string list, ascending. -/
def sIns (a : Str) : List Str → List Str
  | [] => [a]
  | b :: l => if a ≤ b then a :: b :: l else b :: sIns a l

/-- sort.Strings: ascending lexicographic sort. -/
def sortIns : List Str → List Str
  | [] => []
  | a :: l => sIns a (sortIns l)

/-- Initial removal flags of makeTree: a path is marked removed exactly when
the directory is not a textual beginning of it. -/
def initFlags (dir : Str) (l : List Str) : List (Str × Bool) :=
  l.map (fun p => (p, !dir.isPrefixOf p))

/-- The paths whose removal flag is still clear, in order. -/
def liveOf (fl : List (Str × Bool)) : List Str :=
  (fl.filter (fun pb => !pb.2)).map Prod.fst

/-! ### Termination measure for the mutual recursion -/

/-- Entry weight seen from a makeTree call. -/
def wgtM (dir p : Str) : Nat :=
  if dir.isPrefixOf p then 2 * (p.length + 1 - dir.length) + 1 else 1

/-- Entry weight seen from the node loop. -/
def wgtG (dir p : Str) : Nat :=
  if dir.isPrefixOf p then 2 * (p.length + 1 - dir.length) + 1 else 3

def msumM (dir : Str) (l : List Str) : Nat := (l.map (wgtM dir)).sum

def msumG (dir : Str) (l : List Str) : Nat := (l.map (wgtG dir)).sum

def mtMeasure (dir : Str) (paths : List Str) : Nat :=
  if paths.isEmpty then 0 else 2 + msumM dir paths

def gnMeasure (dir : Str) (fl : List (Str × Bool)) : Nat :=
  1 + msumG dir (liveOf fl)

theorem liveOf_nil : liveOf [] = [] := rfl

theorem liveOf_cons_true (p : Str) (fl : List (Str × Bool)) :
    liveOf ((p, true) :: fl) = liveOf fl := by
  simp [liveOf]

theorem liveOf_cons_false (p : Str) (fl : List (Str × Bool)) :
    liveOf ((p, false) :: fl) = p :: liveOf fl := by
  simp [liveOf]

theorem liveOf_initFlags (dir : Str) (l : List Str) :
    liveOf (initFlags dir l) = l.filter (fun p => dir.isPrefixOf p) := by
  induction l with
  | nil => rfl
  | cons p l ih =>
    by_cases h : dir.isPrefixOf p <;>
      simp [initFlags, liveOf, h] <;>
      simpa [initFlags, liveOf] using ih

theorem wgtM_le_wgtG (dir p : Str) : wgtM dir p ≤ wgtG dir p := by
  unfold wgtM wgtG
  by_cases h : dir.isPrefixOf p <;> simp [h]

theorem msum_le_of_sublist (w : Str → Nat) {l₁ l₂ : List Str} (h : l₁.Sublist l₂) :
    (l₁.map w).sum ≤ (l₂.map w).sum :=
  (h.map w).sum_le_sum (by intro a _; exact Nat.zero_le a)

theorem msumG_eq_msumM_of_pfx (dir : Str) (l : List Str)
    (h : ∀ p ∈ l, dir.isPrefixOf p = true) : msumG dir l = msumM dir l := by
  unfold msumG msumM
  induction l with
  | nil => rfl
  | cons p l ih =>
    have hp := h p (by simp)
    simp only [List.map_cons, List.sum_cons]
    rw [ih (fun q hq => h q (by simp [hq]))]
    unfold wgtG wgtM
    simp [hp]

theorem init_measure_le (dir : Str) (l : List Str) :
    msumG dir (liveOf (initFlags dir l)) ≤ msumM dir l := by
  rw [liveOf_initFlags]
  rw [msumG_eq_msumM_of_pfx]
  · exact msum_le_of_sublist (wgtM dir) (List.filter_sublist l)
  · intro p hp
    exact (List.mem_filter.mp hp).2

theorem isPrefixOf_trans {a b c : Str} (h1 : a.isPrefixOf b = true) (h2 : b.isPrefixOf c = true) :
    a.isPrefixOf c = true :=
  pfxIff.mpr
    ((pfxIff.mp h1).trans (pfxIff.mp h2))

theorem wgt_step {dir dir' : Str} (k : Str) (hp : dir.isPrefixOf dir' = true)
    (hl : dir.length + 1 ≤ dir'.length) : wgtM dir' k + 2 ≤ wgtG dir k := by
  unfold wgtM wgtG
  by_cases h1 : dir'.isPrefixOf k
  · have h2 : dir.isPrefixOf k = true := isPrefixOf_trans hp h1
    have hk : dir'.length ≤ k.length := (pfxIff.mp h1).length_le
    simp only [h1, h2, if_true]
    omega
  · by_cases h2 : dir.isPrefixOf k
    · have hk : dir.length ≤ k.length := (pfxIff.mp h2).length_le
      simp [h1, h2]
      omega
    · simp [h1, h2]

theorem msum_step {dir dir' : Str} (hp : dir.isPrefixOf dir' = true)
    (hl : dir.length + 1 ≤ dir'.length) (l : List Str) :
    msumM dir' l + 2 * l.length ≤ msumG dir l := by
  unfold msumM msumG
  induction l with
  | nil => simp
  | cons p l ih =>
    have := wgt_step p hp hl
    simp only [List.map_cons, List.sum_cons, List.length_cons]
    omega

theorem sIns_perm (a : Str) (l : List Str) : (sIns a l).Perm (a :: l) := by
  induction l with
  | nil => simp [sIns]
  | cons b l ih =>
    unfold sIns
    by_cases h : a ≤ b
    · simp [h]
    · simp only [h, if_false]
      exact (List.Perm.cons b ih).trans (List.Perm.swap a b l)

theorem sortIns_perm (l : List Str) : (sortIns l).Perm l := by
  induction l with
  | nil => simp [sortIns]
  | cons a l ih =>
    exact (sIns_perm a (sortIns l)).trans (List.Perm.cons a ih)

theorem msum_perm (w : Str → Nat) {l₁ l₂ : List Str} (h : l₁.Perm l₂) :
    (l₁.map w).sum = (l₂.map w).sum :=
  (h.map w).sum_eq

/-- Relation between a flag list and its update: the paths are unchanged
and a flag clear afterwards was clear before. -/
def FlagStep (a b : Str × Bool) : Prop := a.1 = b.1 ∧ (b.2 = false → a.2 = false)

theorem liveOf_sublist_of_flags {fl fl' : List (Str × Bool)}
    (hrel : List.Forall₂ FlagStep fl fl') :
    (liveOf fl').Sublist (liveOf fl) := by
  induction hrel with
  | nil => simp [liveOf]
  | @cons a b l₁ l₂ hab _ ih =>
    rcases a with ⟨p, pa⟩
    rcases b with ⟨q, pb⟩
    obtain ⟨hpq, himp⟩ := hab
    simp only at hpq
    subst hpq
    cases pb with
    | false =>
      have hpa : pa = false := himp rfl
      subst hpa
      rw [liveOf_cons_false, liveOf_cons_false]
      exact ih.cons₂ p
    | true =>
      rw [liveOf_cons_true]
      cases pa with
      | false =>
        rw [liveOf_cons_false]
        exact ih.cons p
      | true =>
        rw [liveOf_cons_true]
        exact ih

theorem consFlag_ok_elim {hd : Str × Bool} {r : Except MErr (List (Str × Bool) × Bool × List Node × Tree)}
    {fl' : List (Str × Bool)} {s : Bool} {b : List Node} {t : Tree}
    (h : consFlag hd r = .ok (fl', s, b, t)) :
    ∃ fl₀, r = .ok (fl₀, s, b, t) ∧ fl' = hd :: fl₀ := by
  cases r with
  | error e => simp [consFlag] at h
  | ok q =>
    obtain ⟨q1, q2, q3, q4⟩ := q
    simp only [consFlag, Except.ok.injEq, Prod.mk.injEq] at h
    obtain ⟨h1, h2, h3, h4⟩ := h
    subst h2 h3 h4
    exact ⟨q1, rfl, h1.symm⟩

theorem innerLoop_flagStep (fs : Fs) (dir : Str) (node : Node) :
    ∀ (fl : List (Str × Bool)) (sk : Bool) (tb : List Node) (tr : Tree)
      (fl' : List (Str × Bool)) (s' : Bool) (tb' : List Node) (tr' : Tree),
      innerLoop fs dir node fl sk tb tr = .ok (fl', s', tb', tr') →
      List.Forall₂ FlagStep fl fl'
  | [], sk, tb, tr, fl', s', tb', tr', h => by
    simp only [innerLoop, Except.ok.injEq, Prod.mk.injEq] at h
    obtain ⟨h1, _⟩ := h
    exact h1 ▸ List.Forall₂.nil
  | (p, rm) :: rest, sk, tb, tr, fl', s', tb', tr', h => by
    simp only [innerLoop] at h
    split at h
    · obtain ⟨fl₀, hr, rfl⟩ := consFlag_ok_elim h
      exact List.Forall₂.cons ⟨rfl, fun hb => hb⟩
        (innerLoop_flagStep fs dir node rest sk tb tr fl₀ s' tb' tr' hr)
    · split at h
      · obtain ⟨fl₀, hr, rfl⟩ := consFlag_ok_elim h
        exact List.Forall₂.cons ⟨rfl, fun hb => hb⟩
          (innerLoop_flagStep fs dir node rest sk tb tr fl₀ s' tb' tr' hr)
      · split at h
        · split at h
          · obtain ⟨fl₀, hr, rfl⟩ := consFlag_ok_elim h
            exact List.Forall₂.cons ⟨rfl, fun hb => hb⟩
              (innerLoop_flagStep fs dir node rest true tb tr fl₀ s' tb' tr' hr)
          · split at h
            · exact absurd h (by simp)
            · obtain ⟨fl₀, hr, rfl⟩ := consFlag_ok_elim h
              refine List.Forall₂.cons ⟨rfl, fun hb => nomatch hb⟩ ?_
              exact innerLoop_flagStep fs dir node rest true _ _ fl₀ s' tb' tr' hr
        · split at h
          · split at h
            · exact absurd h (by simp)
            · obtain ⟨fl₀, hr, rfl⟩ := consFlag_ok_elim h
              refine List.Forall₂.cons ⟨rfl, fun hb => nomatch hb⟩ ?_
              exact innerLoop_flagStep fs dir node rest sk _ _ fl₀ s' tb' tr' hr
          · obtain ⟨fl₀, hr, rfl⟩ := consFlag_ok_elim h
            exact List.Forall₂.cons ⟨rfl, fun hb => hb⟩
              (innerLoop_flagStep fs dir node rest sk tb tr fl₀ s' tb' tr' hr)

theorem innerLoop_live_sublist {fs : Fs} {dir : Str} {node : Node}
    {fl : List (Str × Bool)} {sk : Bool} {tb : List Node} {tr : Tree}
    {fl' : List (Str × Bool)} {s' : Bool} {tb' : List Node} {tr' : Tree}
    (h : innerLoop fs dir node fl sk tb tr = .ok (fl', s', tb', tr')) :
    (liveOf fl').Sublist (liveOf fl) :=
  liveOf_sublist_of_flags (innerLoop_flagStep fs dir node fl sk tb tr fl' s' tb' tr' h)

theorem measure_mt_to_gn (dir : Str) (l : List Str) (h : l.isEmpty = false) :
    gnMeasure dir (initFlags dir l) < mtMeasure dir l := by
  unfold gnMeasure mtMeasure
  rw [if_neg (by simp [h])]
  have := init_measure_le dir l
  omega

theorem gnMeasure_mono {dir : Str} {fl fl' : List (Str × Bool)}
    (h : (liveOf fl').Sublist (liveOf fl)) : gnMeasure dir fl' ≤ gnMeasure dir fl := by
  unfold gnMeasure
  have := msum_le_of_sublist (wgtG dir) h
  unfold msumG
  omega

theorem measure_gn_to_mt (dir ext : Str) (hext : 1 ≤ ext.length)
    (fl' : List (Str × Bool)) :
    mtMeasure (dir ++ ext) (sortIns (liveOf fl')) < gnMeasure dir fl' := by
  set keys := sortIns (liveOf fl') with hkeys
  by_cases hk : keys.isEmpty
  · unfold mtMeasure gnMeasure
    rw [if_pos hk]
    omega
  · unfold mtMeasure gnMeasure
    rw [if_neg hk]
    have hperm : msumG dir keys = msumG dir (liveOf fl') :=
      msum_perm (wgtG dir) (sortIns_perm (liveOf fl'))
    have hpfx : dir.isPrefixOf (dir ++ ext) = true :=
      pfxIff.mpr ⟨ext, rfl⟩
    have hlen : dir.length + 1 ≤ (dir ++ ext).length := by
      rw [List.length_append]
      omega
    have hstep := msum_step hpfx hlen keys
    have hne : 1 ≤ keys.length := by
      cases hq : keys with
      | nil => rw [hq] at hk; simp at hk
      | cons a l => simp [hq]
    omega

theorem lexHelp {a₁ b₁ a₂ b₂ : Nat} (h1 : a₁ ≤ b₁) (h2 : a₂ < b₂) :
    Prod.Lex (· < ·) (· < ·) (a₁, a₂) (b₁, b₂) := by
  rcases Nat.lt_or_ge a₁ b₁ with h | h
  · exact Prod.Lex.left _ _ h
  · have heq : a₁ = b₁ := Nat.le_antisymm h1 h
    subst heq
    exact Prod.Lex.right _ h2

/-! ## The merge engine: makeTree and its node loop -/

mutual

/-- makeTree from cmd_incremental.go: with no include paths the given
identifier is returned untouched; otherwise the prior tree is loaded, the
node loop runs over its nodes with freshly initialized removal flags, the
builder output is finalized and written unpacked, and the rebuilt tree is
saved, returning its new identifier. -/
def makeTree (fs : Fs) (st : St) (nodeID : Str) (dir : Str)
    (includePaths : List Str) : St × Except MErr Str :=
  if h0 : includePaths.isEmpty then (st, .ok nodeID)
  else
    match loadTree st nodeID with
    | (st1, .error e) => (st1, .error e)
    | (st1, .ok curTree) =>
      match goNodes fs st1 dir curTree (initFlags dir includePaths) [] [] with
      | (st2, .error e) => (st2, .error e)
      | (st2, .ok (tb, tree)) =>
        let treeJSON := serializeTree tb
        let p := saveTree st2 tree
        (saveUnpacked p.1 treeJSON, .ok p.2)
termination_by (mtMeasure dir includePaths, 0)
decreasing_by
  exact Prod.Lex.left _ _ (measure_mt_to_gn dir includePaths (by simpa using h0))

/-- The node loop of makeTree: for each prior node run the inner path loop;
a skipped node is dropped, a file node is copied, a directory node is
recursed into with the sorted still-live keys and reinserted with the new
subtree identifier; after the last node, when it is an unskipped directory,
the end-of-tree scan adds the remaining keys that live in this directory. -/
def goNodes (fs : Fs) (st : St) (dir : Str) (nodes : List Node)
    (flagged : List (Str × Bool)) (tb : List Node) (tree : Tree) :
    St × Except MErr (List Node × Tree) :=
  match nodes with
  | [] => (st, .ok (tb, tree))
  | node :: rest =>
    match hIL : innerLoop fs dir node flagged false tb tree with
    | .error e => (st, .error e)
    | .ok (flagged', skip, tb1, tree1) =>
      if skip then goNodes fs st dir rest flagged' tb1 tree1
      else if node.typ ≠ dirT then
        match insertNode node tree1 with
        | .error e => (st, .error e)
        | .ok tree2 => goNodes fs st dir rest flagged' (tb1 ++ [node]) tree2
      else
        let sub := node.subtree.getD []
        let keys := sortIns (liveOf flagged')
        match makeTree fs st sub (dir ++ node.name ++ ['/']) keys with
        | (st2, .error e) => (st2, .error e)
        | (st2, .ok newID) =>
          let node' : Node := { node with subtree := some newID }
          match insertNode node' tree1 with
          | .error e => (st2, .error e)
          | .ok tree2 =>
            if rest.isEmpty then
              match appendLoop fs (dir ++ node.name) keys (tb1 ++ [node']) tree2 with
              | .error e => (st2, .error e)
              | .ok (tb3, tree3) => goNodes fs st2 dir rest flagged' tb3 tree3
            else goNodes fs st2 dir rest flagged' (tb1 ++ [node']) tree2
termination_by (gnMeasure dir flagged, nodes.length)
decreasing_by
  · exact lexHelp (gnMeasure_mono (innerLoop_live_sublist hIL)) (Nat.lt_succ_self _)
  · exact lexHelp (gnMeasure_mono (innerLoop_live_sublist hIL)) (Nat.lt_succ_self _)
  · apply Prod.Lex.left
    calc mtMeasure (dir ++ node.name ++ ['/']) (sortIns (liveOf flagged'))
        = mtMeasure (dir ++ (node.name ++ ['/'])) (sortIns (liveOf flagged')) := by
          rw [List.append_assoc]
      _ < gnMeasure dir flagged' := by
          apply measure_gn_to_mt
          rw [List.length_append]
          have h1 : (['/'] : Str).length = 1 := rfl
          omega
      _ ≤ gnMeasure dir flagged := gnMeasure_mono (innerLoop_live_sublist hIL)
  · exact lexHelp (gnMeasure_mono (innerLoop_live_sublist hIL)) (Nat.lt_succ_self _)
  · exact lexHelp (gnMeasure_mono (innerLoop_live_sublist hIL)) (Nat.lt_succ_self _)

end

/-! ## Fuel-indexed executable twin of the merge engine

The well-founded definition above is the faithful embedding; the twin below
recurses on an explicit fuel argument, returns none when fuel runs out, and
is proved to agree with the engine whenever it returns a value.  It exists
so that concrete runs can be evaluated by kernel reduction. -/

mutual

def makeTreeF : Nat → Fs → St → Str → Str → List Str → Option (St × Except MErr Str)
  | 0, _, _, _, _, _ => none
  | fuel + 1, fs, st, nodeID, dir, includePaths =>
    if includePaths.isEmpty then some (st, .ok nodeID)
    else
      match loadTree st nodeID with
      | (st1, .error e) => some (st1, .error e)
      | (st1, .ok curTree) =>
        match goNodesF fuel fs st1 dir curTree (initFlags dir includePaths) [] [] with
        | none => none
        | some (st2, .error e) => some (st2, .error e)
        | some (st2, .ok (tb, tree)) =>
          some (saveUnpacked (saveTree st2 tree).1 (serializeTree tb), .ok (saveTree st2 tree).2)

def goNodesF : Nat → Fs → St → Str → List Node → List (Str × Bool) → List Node → Tree →
    Option (St × Except MErr (List Node × Tree))
  | 0, _, _, _, _, _, _, _ => none
  | fuel + 1, fs, st, dir, nodes, flagged, tb, tree =>
    match nodes with
    | [] => some (st, .ok (tb, tree))
    | node :: rest =>
      match innerLoop fs dir node flagged false tb tree with
      | .error e => some (st, .error e)
      | .ok (flagged', skip, tb1, tree1) =>
        if skip then goNodesF fuel fs st dir rest flagged' tb1 tree1
        else if node.typ ≠ dirT then
          match insertNode node tree1 with
          | .error e => some (st, .error e)
          | .ok tree2 => goNodesF fuel fs st dir rest flagged' (tb1 ++ [node]) tree2
        else
          match makeTreeF fuel fs st (node.subtree.getD []) (dir ++ node.name ++ ['/'])
              (sortIns (liveOf flagged')) with
          | none => none
          | some (st2, .error e) => some (st2, .error e)
          | some (st2, .ok newID) =>
            match insertNode { node with subtree := some newID } tree1 with
            | .error e => some (st2, .error e)
            | .ok tree2 =>
              if rest.isEmpty then
                match appendLoop fs (dir ++ node.name) (sortIns (liveOf flagged'))
                    (tb1 ++ [{ node with subtree := some newID }]) tree2 with
                | .error e => some (st2, .error e)
                | .ok (tb3, tree3) => goNodesF fuel fs st2 dir rest flagged' tb3 tree3
              else goNodesF fuel fs st2 dir rest flagged' (tb1 ++ [{ node with subtree := some newID }]) tree2

end

theorem execF_sound (fuel : Nat) :
    (∀ fs st nodeID dir l r, makeTreeF fuel fs st nodeID dir l = some r →
      makeTree fs st nodeID dir l = r) ∧
    (∀ fs st dir ns fl tb tr r, goNodesF fuel fs st dir ns fl tb tr = some r →
      goNodes fs st dir ns fl tb tr = r) := by
  induction fuel with
  | zero =>
    constructor
    · intro fs st nodeID dir l r h
      simp [makeTreeF] at h
    · intro fs st dir ns fl tb tr r h
      simp [goNodesF] at h
  | succ fuel ih =>
    constructor
    · intro fs st nodeID dir l r h
      rw [makeTree.eq_def]
      simp only [makeTreeF] at h
      by_cases hl : l.isEmpty = true
      · rw [if_pos hl] at h
        rw [dif_pos hl]
        simpa using h
      · rw [if_neg hl] at h
        rw [dif_neg hl]
        rcases hLT : loadTree st nodeID with ⟨st1, res⟩
        rw [hLT] at h
        cases res with
        | error e => simpa using h
        | ok curTree =>
          simp only [] at h
          simp only []
          rcases hGN : goNodesF fuel fs st1 dir curTree (initFlags dir l) [] [] with _ | ⟨st2, res2⟩
          · rw [hGN] at h
            simp at h
          · rw [hGN] at h
            have hGN' := ih.2 fs st1 dir curTree (initFlags dir l) [] [] (st2, res2) hGN
            rw [hGN']
            cases res2 with
            | error e => simpa using h
            | ok q =>
              obtain ⟨tb, tree⟩ := q
              simpa using h
    · intro fs st dir ns fl tb tr r h
      rw [goNodes.eq_def]
      simp only [goNodesF] at h
      cases ns with
      | nil => simpa using h
      | cons node rest =>
        simp only [] at h
        simp only []
        rcases hIL2 : innerLoop fs dir node fl false tb tr with e | ⟨fl', sk, tb1, tr1⟩
        · rw [hIL2] at h
          simpa using h
        · rw [hIL2] at h
          simp only [] at h
          simp only []
          cases sk with
          | true =>
            rw [if_pos rfl] at h ⊢
            exact ih.2 fs st dir rest fl' tb1 tr1 r h
          | false =>
            rw [if_neg (by simp)] at h ⊢
            by_cases hty : node.typ ≠ dirT
            · rw [if_pos hty] at h ⊢
              rcases hIns : insertNode node tr1 with e | tree2
              · rw [hIns] at h
                simpa using h
              · rw [hIns] at h
                simp only [] at h
                simp only []
                exact ih.2 fs st dir rest fl' (tb1 ++ [node]) tree2 r h
            · rw [if_neg hty] at h ⊢
              rcases hMT : makeTreeF fuel fs st (node.subtree.getD []) (dir ++ node.name ++ ['/'])
                  (sortIns (liveOf fl')) with _ | ⟨st2, res2⟩
              · rw [hMT] at h
                simp at h
              · rw [hMT] at h
                have hMT' := ih.1 fs st (node.subtree.getD []) (dir ++ node.name ++ ['/'])
                  (sortIns (liveOf fl')) (st2, res2) hMT
                rw [hMT']
                cases res2 with
                | error e => simpa using h
                | ok newID =>
                  simp only [] at h
                  simp only []
                  rcases hIns : insertNode { node with subtree := some newID } tr1 with e | tree2
                  · rw [hIns] at h
                    simpa using h
                  · rw [hIns] at h
                    simp only [] at h
                    simp only []
                    by_cases hrest : rest.isEmpty = true
                    · rw [if_pos hrest] at h ⊢
                      rcases hAL : appendLoop fs (dir ++ node.name) (sortIns (liveOf fl'))
                          (tb1 ++ [{ node with subtree := some newID }]) tree2 with e | ⟨tb3, tree3⟩
                      · rw [hAL] at h ⊢
                        simpa using h
                      · rw [hAL] at h ⊢
                        simp only [] at h
                        simp only []
                        exact ih.2 fs st2 dir rest fl' tb3 tree3 r h
                    · rw [if_neg hrest] at h ⊢
                      exact ih.2 fs st2 dir rest fl'
                        (tb1 ++ [{ node with subtree := some newID }]) tree2 r h

/-- Convenience form of the soundness bridge for single runs. -/
theorem makeTree_eval (fuel : Nat) {fs : Fs} {st : St} {id dir : Str} {l : List Str}
    {r : St × Except MErr Str} (h : makeTreeF fuel fs st id dir l = some r) :
    makeTree fs st id dir l = r :=
  (execF_sound fuel).1 fs st id dir l r h

/-- Fast path of makeTree: an empty include list returns the identifier with
the state — store, unpacked blobs and load log — untouched. -/
theorem makeTree_nil (fs : Fs) (st : St) (id dir : Str) :
    makeTree fs st id dir [] = (st, .ok id) :=
  makeTree_eval 1 (by simp [makeTreeF])

/-! ## Sortedness and state invariants -/

/-- Strictly ascending node names: sorted with no duplicates. -/
def strictSorted (t : Tree) : Prop :=
  List.Pairwise (fun a b => a.name < b.name) t

instance strictSorted_decidable (t : Tree) : Decidable (strictSorted t) := by
  unfold strictSorted
  infer_instance

/-- Evolution of the repository state over a merge: every stored tree is
still stored unchanged, every newly stored tree is strictly sorted, and the
unpacked blob list only grows. -/
def StInv (st st' : St) : Prop :=
  (∀ k t, lk st.trees k = some t → lk st'.trees k = some t) ∧
  (∀ k t, lk st.trees k = none → lk st'.trees k = some t → strictSorted t) ∧
  st.unpacked.IsSuffix st'.unpacked

theorem StInv_refl (st : St) : StInv st st :=
  ⟨fun _ _ h => h, fun k t h1 h2 => absurd h2 (h1 ▸ by simp), List.suffix_refl _⟩

theorem StInv_trans {s1 s2 s3 : St} (h12 : StInv s1 s2) (h23 : StInv s2 s3) :
    StInv s1 s3 := by
  obtain ⟨a12, b12, c12⟩ := h12
  obtain ⟨a23, b23, c23⟩ := h23
  refine ⟨fun k t h => a23 k t (a12 k t h), fun k t h1 h2 => ?_, c12.trans c23⟩
  cases hm : lk s2.trees k with
  | none => exact b23 k t hm h2
  | some t2 =>
    have := a23 k t2 hm
    rw [this] at h2
    injection h2 with h2
    exact h2 ▸ b12 k t2 h1 hm

theorem loadTree_fst (st : St) (id : Str) :
    (loadTree st id).1 = { st with loads := id :: st.loads } := by
  unfold loadTree
  cases lk st.trees id <;> rfl

theorem loadTree_inv (st : St) (id : Str) : StInv st (loadTree st id).1 := by
  rw [loadTree_fst]
  exact ⟨fun _ _ h => h, fun k t h1 h2 => absurd h2 (h1 ▸ by simp), List.suffix_refl _⟩

theorem saveTree_eq (st : St) (t : Tree) :
    saveTree st t =
      (match lk st.trees (serializeTree t) with
       | some _ => st
       | none => { st with trees := (serializeTree t, t) :: st.trees },
       serializeTree t) := by
  unfold saveTree
  show (match lk st.trees (serializeTree t) with
        | some _ => (st, serializeTree t)
        | none => ({ st with trees := (serializeTree t, t) :: st.trees }, serializeTree t)) = _
  cases lk st.trees (serializeTree t) <;> rfl

theorem saveTree_inv {t : Tree} (st : St) (h : strictSorted t) :
    StInv st (saveTree st t).1 := by
  rw [saveTree_eq]
  cases hm : lk st.trees (serializeTree t) with
  | some t0 => exact StInv_refl st
  | none =>
    refine ⟨fun k t0 hk => ?_, fun k t0 hk1 hk2 => ?_, List.suffix_refl _⟩
    · show lk ((serializeTree t, t) :: st.trees) k = some t0
      simp only [lk]
      have hne : serializeTree t ≠ k := fun he => by rw [he] at hm; rw [hm] at hk; cases hk
      rw [if_neg hne]
      exact hk
    · replace hk2 : lk ((serializeTree t, t) :: st.trees) k = some t0 := hk2
      simp only [lk] at hk2
      by_cases he : serializeTree t = k
      · rw [if_pos he] at hk2
        injection hk2 with hk2
        exact hk2 ▸ h
      · rw [if_neg he] at hk2
        rw [hk1] at hk2
        cases hk2

theorem saveUnpacked_inv (st : St) (s : Str) : StInv st (saveUnpacked st s) :=
  ⟨fun _ _ h => h, fun k t h1 h2 => absurd h2 (h1 ▸ by simp),
    List.suffix_cons s st.unpacked⟩

theorem insertNode_mem {n : Node} : ∀ {tr tr' : Tree}, insertNode n tr = .ok tr' →
    ∀ x ∈ tr', x = n ∨ x ∈ tr
  | [], tr', h, x, hx => by
    simp only [insertNode, Except.ok.injEq] at h
    subst h
    simp only [List.mem_singleton] at hx
    exact Or.inl hx
  | m :: rest, tr', h, x, hx => by
    simp only [insertNode] at h
    split at h
    · injection h with h
      subst h
      rcases List.mem_cons.mp hx with rfl | hx
      · exact Or.inl rfl
      · exact Or.inr hx
    · split at h
      · cases h
      · cases hr : insertNode n rest with
        | error e => rw [hr] at h; cases h
        | ok rest' =>
          rw [hr] at h
          injection h with h
          subst h
          rcases List.mem_cons.mp hx with rfl | hx
          · exact Or.inr (by simp)
          · rcases insertNode_mem hr x hx with h1 | h1
            · exact Or.inl h1
            · exact Or.inr (by simp [h1])

theorem insertNode_sorted {n : Node} : ∀ {tr tr' : Tree}, strictSorted tr →
    insertNode n tr = .ok tr' → strictSorted tr'
  | [], tr', _, h => by
    simp only [insertNode, Except.ok.injEq] at h
    subst h
    simp [strictSorted]
  | m :: rest, tr', hs, h => by
    simp only [insertNode] at h
    obtain ⟨hm, hrest⟩ := List.pairwise_cons.mp hs
    split at h
    next hlt =>
      injection h with h
      subst h
      refine List.pairwise_cons.mpr ⟨?_, hs⟩
      intro b hb
      rcases List.mem_cons.mp hb with rfl | hb
      · exact hlt
      · exact lt_trans hlt (hm b hb)
    next hlt =>
      split at h
      next heq => cases h
      next heq =>
        cases hr : insertNode n rest with
        | error e => rw [hr] at h; cases h
        | ok rest' =>
          rw [hr] at h
          injection h with h
          subst h
          refine List.pairwise_cons.mpr ⟨?_, insertNode_sorted hrest hr⟩
          intro b hb
          rcases insertNode_mem hr b hb with h1 | h1
          · subst h1
            rcases lt_trichotomy b.name m.name with hx | hx | hx
            · exact absurd hx hlt
            · exact absurd hx heq
            · exact hx
          · exact hm b h1

theorem addNode_sorted {fs : Fs} {p : Str} {tb : List Node} {tr : Tree}
    {tb' : List Node} {tr' : Tree} (hs : strictSorted tr)
    (h : addNode fs p tb tr = .ok (tb', tr')) : strictSorted tr' := by
  unfold addNode at h
  split at h
  · cases h
  · split at h
    · cases h
    next tr2 hins =>
      injection h with h
      injection h with h1 h2
      subst h2
      exact insertNode_sorted hs hins

theorem innerLoop_sorted (fs : Fs) (dir : Str) (node : Node) :
    ∀ (fl : List (Str × Bool)) (sk : Bool) (tb : List Node) (tr : Tree)
      (fl' : List (Str × Bool)) (s' : Bool) (tb' : List Node) (tr' : Tree),
      strictSorted tr → innerLoop fs dir node fl sk tb tr = .ok (fl', s', tb', tr') →
      strictSorted tr'
  | [], sk, tb, tr, fl', s', tb', tr', hs, h => by
    simp only [innerLoop, Except.ok.injEq, Prod.mk.injEq] at h
    obtain ⟨_, _, _, h4⟩ := h
    exact h4 ▸ hs
  | (p, rm) :: rest, sk, tb, tr, fl', s', tb', tr', hs, h => by
    simp only [innerLoop] at h
    split at h
    · obtain ⟨fl₀, hr, rfl⟩ := consFlag_ok_elim h
      exact innerLoop_sorted fs dir node rest sk tb tr fl₀ s' tb' tr' hs hr
    · split at h
      · obtain ⟨fl₀, hr, rfl⟩ := consFlag_ok_elim h
        exact innerLoop_sorted fs dir node rest sk tb tr fl₀ s' tb' tr' hs hr
      · split at h
        · split at h
          · obtain ⟨fl₀, hr, rfl⟩ := consFlag_ok_elim h
            exact innerLoop_sorted fs dir node rest true tb tr fl₀ s' tb' tr' hs hr
          · split at h
            · exact absurd h (by simp)
            next tb2 tr2 hAdd =>
              obtain ⟨fl₀, hr, rfl⟩ := consFlag_ok_elim h
              exact innerLoop_sorted fs dir node rest true tb2 tr2 fl₀ s' tb' tr'
                (addNode_sorted hs hAdd) hr
        · split at h
          · split at h
            · exact absurd h (by simp)
            next tb2 tr2 hAdd =>
              obtain ⟨fl₀, hr, rfl⟩ := consFlag_ok_elim h
              exact innerLoop_sorted fs dir node rest sk tb2 tr2 fl₀ s' tb' tr'
                (addNode_sorted hs hAdd) hr
          · obtain ⟨fl₀, hr, rfl⟩ := consFlag_ok_elim h
            exact innerLoop_sorted fs dir node rest sk tb tr fl₀ s' tb' tr' hs hr

theorem appendLoop_sorted (fs : Fs) (dnp : Str) :
    ∀ (keys : List Str) (tb : List Node) (tr : Tree) (tb' : List Node) (tr' : Tree),
      strictSorted tr → appendLoop fs dnp keys tb tr = .ok (tb', tr') → strictSorted tr'
  | [], tb, tr, tb', tr', hs, h => by
    simp only [appendLoop, Except.ok.injEq, Prod.mk.injEq] at h
    exact h.2 ▸ hs
  | p :: rest, tb, tr, tb', tr', hs, h => by
    simp only [appendLoop] at h
    split at h
    · split at h
      · exact absurd h (by simp)
      next tb2 tr2 hAdd =>
        exact appendLoop_sorted fs dnp rest tb2 tr2 tb' tr' (addNode_sorted hs hAdd) h
    · exact appendLoop_sorted fs dnp rest tb tr tb' tr' hs h

mutual

/-- Over any makeTree run the repository state evolves by StInv: nothing
stored is overwritten or deleted, every new tree is sorted, blobs only
accumulate. -/
theorem makeTree_StInv (fs : Fs) (st : St) (id dir : Str) (l : List Str) :
    StInv st (makeTree fs st id dir l).1 := by
  rw [makeTree.eq_def]
  by_cases hl : l.isEmpty = true
  · rw [dif_pos hl]
    exact StInv_refl st
  · rw [dif_neg hl]
    rcases hLT : loadTree st id with ⟨st1, res⟩
    have hInv1 : StInv st st1 := by
      have h := loadTree_inv st id
      rw [hLT] at h
      exact h
    cases res with
    | error e => exact hInv1
    | ok curTree =>
      simp only []
      rcases hGN : goNodes fs st1 dir curTree (initFlags dir l) [] [] with ⟨st2, res2⟩
      have hInv2 := goNodes_StInv fs st1 dir curTree (initFlags dir l) [] []
        (by simp [strictSorted])
      rw [hGN] at hInv2
      cases res2 with
      | error e => exact StInv_trans hInv1 hInv2.1
      | ok q =>
        obtain ⟨tb, tree⟩ := q
        have hsorted : strictSorted tree := hInv2.2 tb tree rfl
        exact StInv_trans hInv1 (StInv_trans hInv2.1
          (StInv_trans (saveTree_inv st2 hsorted) (saveUnpacked_inv _ _)))
termination_by (mtMeasure dir l, 0)
decreasing_by
  exact Prod.Lex.left _ _ (measure_mt_to_gn dir l (by simpa using hl))

/-- Over any node-loop run the state evolves by StInv, and on success the
tree under construction stays strictly sorted. -/
theorem goNodes_StInv (fs : Fs) (st : St) (dir : Str) (ns : List Node)
    (fl : List (Str × Bool)) (tb : List Node) (tr : Tree) (hs : strictSorted tr) :
    StInv st (goNodes fs st dir ns fl tb tr).1 ∧
    (∀ tb2 tr2, (goNodes fs st dir ns fl tb tr).2 = .ok (tb2, tr2) → strictSorted tr2) := by
  rw [goNodes.eq_def]
  cases ns with
  | nil =>
    refine ⟨StInv_refl st, fun tb2 tr2 h => ?_⟩
    have h' : (Except.ok (tb, tr) : Except MErr (List Node × Tree)) = .ok (tb2, tr2) := h
    injection h' with h''
    injection h'' with h1 h2
    exact h2 ▸ hs
  | cons node rest =>
    simp only []
    rcases hIL2 : innerLoop fs dir node fl false tb tr with e | ⟨fl', sk, tb1, tr1⟩
    · exact ⟨StInv_refl st, fun tb2 tr2 h => nomatch h⟩
    · have hs1 : strictSorted tr1 :=
        innerLoop_sorted fs dir node fl false tb tr fl' sk tb1 tr1 hs hIL2
      simp only []
      cases sk with
      | true =>
        rw [if_pos rfl]
        exact goNodes_StInv fs st dir rest fl' tb1 tr1 hs1
      | false =>
        rw [if_neg (by simp)]
        by_cases hty : node.typ ≠ dirT
        · rw [if_pos hty]
          rcases hIns : insertNode node tr1 with e | tree2
          · exact ⟨StInv_refl st, fun tb2 tr2 h => nomatch h⟩
          · exact goNodes_StInv fs st dir rest fl' (tb1 ++ [node]) tree2
              (insertNode_sorted hs1 hIns)
        · rw [if_neg hty]
          rcases hMT : makeTree fs st (node.subtree.getD []) (dir ++ node.name ++ ['/'])
              (sortIns (liveOf fl')) with ⟨st2, res2⟩
          have hInvM : StInv st st2 := by
            have h := makeTree_StInv fs st (node.subtree.getD []) (dir ++ node.name ++ ['/'])
              (sortIns (liveOf fl'))
            rw [hMT] at h
            exact h
          cases res2 with
          | error e => exact ⟨hInvM, fun tb2 tr2 h => nomatch h⟩
          | ok newID =>
            simp only []
            rcases hIns : insertNode { node with subtree := some newID } tr1 with e | tree2
            · exact ⟨hInvM, fun tb2 tr2 h => nomatch h⟩
            · have hs2 : strictSorted tree2 := insertNode_sorted hs1 hIns
              simp only []
              by_cases hrest : rest.isEmpty = true
              · rw [if_pos hrest]
                rcases hAL : appendLoop fs (dir ++ node.name) (sortIns (liveOf fl'))
                    (tb1 ++ [{ node with subtree := some newID }]) tree2 with e | ⟨tb3, tree3⟩
                · rw [hAL]
                  exact ⟨hInvM, fun tb2 tr2 h => nomatch h⟩
                · rw [hAL]
                  have hs3 : strictSorted tree3 :=
                    appendLoop_sorted fs (dir ++ node.name) (sortIns (liveOf fl'))
                      (tb1 ++ [{ node with subtree := some newID }]) tree2 tb3 tree3 hs2 hAL
                  have hrec := goNodes_StInv fs st2 dir rest fl' tb3 tree3 hs3
                  exact ⟨StInv_trans hInvM hrec.1, hrec.2⟩
              · rw [if_neg hrest]
                have hrec := goNodes_StInv fs st2 dir rest fl'
                  (tb1 ++ [{ node with subtree := some newID }]) tree2 hs2
                exact ⟨StInv_trans hInvM hrec.1, hrec.2⟩
termination_by (gnMeasure dir fl, ns.length)
decreasing_by
  all_goals
    first
      | exact lexHelp (gnMeasure_mono (innerLoop_live_sublist hIL2)) (Nat.lt_succ_self _)
      | (apply Prod.Lex.left
         rw [List.append_assoc]
         refine lt_of_lt_of_le ?_ (gnMeasure_mono (innerLoop_live_sublist hIL2))
         apply measure_gn_to_mt
         rw [List.length_append]
         have h1 : (['/'] : Str).length = 1 := rfl
         omega)

end

/-! ## Concrete scenarios -/

/-- Stat data of a plain file in the test scenarios. -/
def fiFile : FInfo := ⟨str "file", 7⟩

def aN : Node := ⟨str "a", str "file", 0, none⟩

def bN : Node := ⟨str "b", str "file", 0, none⟩

def dN : Node := ⟨str "d", str "file", 0, none⟩

def fN : Node := ⟨str "f", str "file", 0, none⟩

/-- C4 scenario: prior tree with files a and b, change path /a deleted. -/
def t4 : Tree := [aN, bN]

def st4 : St := ⟨[(serializeTree t4, t4)], [], []⟩

/-- C5 scenario: prior tree with file b only, change path /a never existed. -/
def t5 : Tree := [bN]

def st5 : St := ⟨[(serializeTree t5, t5)], [], []⟩

/-- C6 counterexample scenario: empty prior tree, new file /b on disk. -/
def st6 : St := ⟨[(serializeTree [], [])], [], []⟩

def fs6 : Fs := [(str "/b", fiFile)]

/-- C6 amended positive scenario: prior tree with one directory x (empty
subtree), new file /y on disk sorting after it. -/
def xDir : Node := ⟨str "x", str "dir", 0, some (serializeTree [])⟩

def st6b : St := ⟨[(serializeTree [xDir], [xDir]), (serializeTree [], [])], [], []⟩

def fs6b : Fs := [(str "/y", fiFile)]

def yN : Node := mkNode (str "/y") fiFile

/-- C7 scenario: prior tree with files b and d under /x/, new file /x/c. -/
def t7 : Tree := [bN, dN]

def st7 : St := ⟨[(serializeTree t7, t7)], [], []⟩

def fs7 : Fs := [(str "/x/c", fiFile)]

def cN : Node := mkNode (str "/x/c") fiFile

/-- C8 scenario: root tree with directory a over subtree [f] and file b;
only /b changed. -/
def tT8 : Tree := [fN]

def aDir8 : Node := ⟨str "a", str "dir", 0, some (serializeTree tT8)⟩

def t8 : Tree := [aDir8, bN]

def st8 : St := ⟨[(serializeTree t8, t8), (serializeTree tT8, tT8)], [], []⟩

def fs8 : Fs := [(str "/b", fiFile)]

def b8new : Node := mkNode (str "/b") fiFile

/-! ### Evaluated runs of the engine on the scenarios -/

theorem run4 : makeTree [] st4 (serializeTree t4) (str "/") [str "/a"] =
    (⟨[(serializeTree t4, t4)], [], [serializeTree t4]⟩, .error .notFound) :=
  makeTree_eval 20 (by decide)

theorem run5 : makeTree [] st5 (serializeTree t5) (str "/") [str "/a"] =
    (⟨[(serializeTree t5, t5)], [], [serializeTree t5]⟩, .error .notFound) :=
  makeTree_eval 20 (by decide)

theorem run6 : makeTree fs6 st6 (serializeTree ([] : Tree)) (str "/") [str "/b"] =
    (⟨[(serializeTree ([] : Tree), [])], [serializeTree ([] : Tree)],
      [serializeTree ([] : Tree)]⟩, .ok (serializeTree ([] : Tree))) :=
  makeTree_eval 20 (by decide)

theorem run6b : makeTree fs6b st6b (serializeTree [xDir]) (str "/") [str "/y"] =
    (⟨[(serializeTree [xDir, yN], [xDir, yN]), (serializeTree [xDir], [xDir]),
        (serializeTree ([] : Tree), [])],
      [serializeTree [xDir, yN], serializeTree ([] : Tree)],
      [serializeTree ([] : Tree), serializeTree [xDir]]⟩,
     .ok (serializeTree [xDir, yN])) :=
  makeTree_eval 20 (by decide)

theorem run7 : makeTree fs7 st7 (serializeTree t7) (str "/x/") [str "/x/c"] =
    (⟨[(serializeTree [bN, cN, dN], [bN, cN, dN]), (serializeTree t7, t7)],
      [serializeTree [bN, cN, dN]], [serializeTree t7]⟩,
     .ok (serializeTree [bN, cN, dN])) :=
  makeTree_eval 20 (by decide)

theorem run8 : makeTree fs8 st8 (serializeTree t8) (str "/") [str "/b"] =
    (⟨[(serializeTree [aDir8, b8new], [aDir8, b8new]), (serializeTree t8, t8),
        (serializeTree tT8, tT8)],
      [serializeTree [aDir8, b8new], serializeTree tT8],
      [serializeTree tT8, serializeTree t8]⟩,
     .ok (serializeTree [aDir8, b8new])) :=
  makeTree_eval 20 (by decide)
/-! ## Step lemmas for the engine -/

theorem goNodes_nil (fs : Fs) (st : St) (dir : Str) (fl : List (Str × Bool))
    (tb : List Node) (tr : Tree) :
    goNodes fs st dir [] fl tb tr = (st, .ok (tb, tr)) :=
  (execF_sound 1).2 fs st dir [] fl tb tr (st, .ok (tb, tr)) (by simp [goNodesF])

theorem saveTree_snd (st : St) (t : Tree) : (saveTree st t).2 = serializeTree t := by
  rw [saveTree_eq]

theorem loadTree_some {st : St} {id : Str} {t : Tree} (h : lk st.trees id = some t) :
    loadTree st id = ({ st with loads := id :: st.loads }, .ok t) := by
  unfold loadTree
  rw [h]

theorem makeTree_cons_eq (fs : Fs) (st : St) (id dir : Str) (l : List Str)
    (hl : l.isEmpty = false) :
    makeTree fs st id dir l =
      match loadTree st id with
      | (st1, .error e) => (st1, .error e)
      | (st1, .ok curTree) =>
        match goNodes fs st1 dir curTree (initFlags dir l) [] [] with
        | (st2, .error e) => (st2, .error e)
        | (st2, .ok (tb, tree)) =>
          (saveUnpacked (saveTree st2 tree).1 (serializeTree tb), .ok (saveTree st2 tree).2) := by
  rw [makeTree.eq_def]
  rw [dif_neg (by simp [hl])]

/-! ## The command guard: includePatternOptions.Empty and runIncremental -/

/-- includePatternOptions from include.go: the four pattern sources. -/
structure includePatternOptions where
  Includes : List Str
  InsensitiveIncludes : List Str
  IncludeFiles : List Str
  InsensitiveIncludeFiles : List Str
deriving DecidableEq

/-- includePatternOptions.Empty from include.go: true exactly when all four
lists are empty. -/
def includePatternOptions.Empty (opts : includePatternOptions) : Bool :=
  opts.Includes.isEmpty && opts.InsensitiveIncludes.isEmpty &&
    opts.IncludeFiles.isEmpty && opts.InsensitiveIncludeFiles.isEmpty

/-- Modelled from the spec: the auxiliary snapshot metadata input of the
command (sections 4.4 and 7); the snapshotMetadataArgs type itself is not
among the given sources, only its emptiness test is used by the guard. -/
structure snapshotMetadataArgs where
  hostname : Option Str
  time : Option Str
deriving DecidableEq

def snapshotMetadataArgs.empty (m : snapshotMetadataArgs) : Bool :=
  m.hostname.isNone && m.time.isNone

/-- IncrementalOptions from cmd_incremental.go, restricted to the fields the
guard reads. -/
structure IncrementalOptions where
  Metadata : snapshotMetadataArgs
  patterns : includePatternOptions
deriving DecidableEq

/-- Modelled from the spec: the observable side effects of the orchestration
(section 4.4) — repository opened, append lock taken, index loaded, plus the
repository state and the number of snapshots written. -/
structure World where
  repoOpened : Bool
  lockHeld : Bool
  indexLoaded : Bool
  snapshotResolved : Bool
  repo : St
  snapshotsSaved : Nat
deriving DecidableEq

inductive RunErr where
  | nothingToDo
deriving DecidableEq

/-- runIncremental from cmd_incremental.go: the NothingToDo guard is taken
verbatim from the source (both pattern options and metadata empty); the rest
of the orchestration consists of external collaborators and is modelled from
the spec only as far as recording that the repository is opened, locked and
read once the guard is passed. -/
def runIncremental (opts : IncrementalOptions) (w : World) : World × Except RunErr Unit :=
  if opts.patterns.Empty && opts.Metadata.empty then (w, .error .nothingToDo)
  else ({ w with repoOpened := true, lockHeld := true, indexLoaded := true }, .ok ())

/-! ## The claims -/

/-- C1: for every merge invocation — any prior tree identifier, directory
and change-path list, completing or aborting — every tree object stored
before the merge is still stored byte-identical afterwards (in particular
re-loading the prior root identifier returns its old tree), and the
unpacked blobs written before are all still present: the merge only ever
adds objects. -/
theorem claim1_no_overwrite (fs : Fs) (st : St) (id dir : Str) (paths : List Str)
    (k : Str) (t : Tree) (hk : lk st.trees k = some t) :
    lk (makeTree fs st id dir paths).1.trees k = some t ∧
    st.unpacked.IsSuffix (makeTree fs st id dir paths).1.unpacked :=
  ⟨(makeTree_StInv fs st id dir paths).1 k t hk,
   (makeTree_StInv fs st id dir paths).2.2⟩

theorem claim1_witness :
    lk (makeTree [] st4 (serializeTree t4) (str "/") [str "/a"]).1.trees
      (serializeTree t4) = some t4 ∧
    st4.unpacked.IsSuffix (makeTree [] st4 (serializeTree t4) (str "/") [str "/a"]).1.unpacked :=
  claim1_no_overwrite [] st4 (serializeTree t4) (str "/") [str "/a"]
    (serializeTree t4) t4 (by decide)

/-- C2: merging with an empty change-path list returns the prior identifier
itself and leaves the whole repository state untouched — no tree load is
logged, no tree saved, no auxiliary blob written. -/
theorem claim2_identity (fs : Fs) (st : St) (id dir : Str) :
    makeTree fs st id dir [] = (st, .ok id) :=
  makeTree_nil fs st id dir

/-- C3: every tree newly persisted by a merge — whatever the prior tree and
change-path list — has its nodes strictly sorted by name with no duplicate
names. -/
theorem claim3_sorted (fs : Fs) (st : St) (id dir : Str) (paths : List Str)
    (k : Str) (t : Tree) (h1 : lk st.trees k = none)
    (h2 : lk (makeTree fs st id dir paths).1.trees k = some t) :
    strictSorted t :=
  (makeTree_StInv fs st id dir paths).2.1 k t h1 h2

theorem claim3_witness : strictSorted [bN, cN, dN] :=
  claim3_sorted fs7 st7 (serializeTree t7) (str "/x/") [str "/x/c"]
    (serializeTree [bN, cN, dN]) [bN, cN, dN] (by decide) (by rw [run7]; decide)

/-- C4: evaluation of the code at the failing input of the deletion claim —
prior tree [a, b], change path /a missing from the filesystem.  The claim
says the merge succeeds and merely omits a; the code instead aborts the
whole merge with the NotFound stat error, because the deletion branch never
marks the path consumed and the later sibling b re-triggers addNode on the
missing path. -/
theorem claim4_deletion_aborts :
    (makeTree [] st4 (serializeTree t4) (str "/") [str "/a"]).2 = .error .notFound := by
  rw [run4]

/-- C5: evaluation of the code at the failing input of the NotFound claim —
prior tree [b] only, change path /a absent from disk and with no prior
node.  The claim says such a path is silently ignored; the code instead
stats it through addNode (b sorts after a) and aborts the merge with the
NotFound error. -/
theorem claim5_notfound_escalates :
    (makeTree [] st5 (serializeTree t5) (str "/") [str "/a"]).2 = .error .notFound := by
  rw [run5]

/-- C6 counterexample: a change path /b that exists on disk, into a
directory whose prior tree is empty, does not end up in the resulting tree
— the merge succeeds and persists the empty tree, because the end-of-tree
scan only runs from the body of a directory node and an empty prior tree
has none. -/
theorem claim6_counterexample :
    (makeTree fs6 st6 (serializeTree ([] : Tree)) (str "/") [str "/b"]).2 =
      .ok (serializeTree ([] : Tree)) ∧
    lk (makeTree fs6 st6 (serializeTree ([] : Tree)) (str "/") [str "/b"]).1.trees
      (serializeTree ([] : Tree)) = some [] := by
  rw [run6]
  exact ⟨rfl, by decide⟩

/-- C6 amended: the end-of-tree append runs only when the final prior node
is a directory that was neither deleted nor replaced.  When the prior tree
has no nodes at all, every change path is dropped and the merge returns the
empty tree (first conjunct, for any state whose prior tree is empty); when
the final prior node is an unskipped directory, a still-unconsumed change
path whose parent is the current directory is appended at the end (second
and third conjuncts, on the one-directory scenario). -/
theorem claim6_amended :
    (∀ (fs : Fs) (st : St) (id dir : Str) (l : List Str), l ≠ [] →
      lk st.trees id = some [] →
      (makeTree fs st id dir l).2 = .ok (serializeTree ([] : Tree))) ∧
    (makeTree fs6b st6b (serializeTree [xDir]) (str "/") [str "/y"]).2 =
      .ok (serializeTree [xDir, yN]) ∧
    lk (makeTree fs6b st6b (serializeTree [xDir]) (str "/") [str "/y"]).1.trees
      (serializeTree [xDir, yN]) = some [xDir, yN] := by
  refine ⟨?_, ?_, ?_⟩
  · intro fs st id dir l hne hemp
    rw [makeTree_cons_eq fs st id dir l
      (by cases l with | nil => exact absurd rfl hne | cons a as => rfl)]
    rw [loadTree_some hemp]
    simp only []
    rw [goNodes_nil]
    simp only []
    rw [saveTree_snd]
  · rw [run6b]
  · rw [run6b]
    decide

theorem claim6_witness :
    (makeTree fs6 st6 (serializeTree ([] : Tree)) (str "/") [str "/b"]).2 =
      .ok (serializeTree ([] : Tree)) :=
  claim6_amended.1 fs6 st6 (serializeTree ([] : Tree)) (str "/") [str "/b"]
    (by decide) (by decide)

/-- C7: on the prior tree [b, d] under /x/ with the on-disk change path
/x/c, the merge succeeds and persists exactly the tree [b, c, d]: b and d
copied unchanged and c freshly built from the filesystem data. -/
theorem claim7_insertion_order :
    (makeTree fs7 st7 (serializeTree t7) (str "/x/") [str "/x/c"]).2 =
      .ok (serializeTree [bN, cN, dN]) ∧
    lk (makeTree fs7 st7 (serializeTree t7) (str "/x/") [str "/x/c"]).1.trees
      (serializeTree [bN, cN, dN]) = some [bN, cN, dN] ∧
    cN = mkNode (str "/x/c") fiFile := by
  rw [run7]
  exact ⟨rfl, by decide, rfl⟩

/-- C8 counterexample: with root tree [a(dir over [f]), b(file)] and the
sole change path /b, the subtree [f] of a contains no change path yet its
identifier is loaded during the merge — the claim that only directories on
a path to a changed file are loaded is false at this input. -/
theorem claim8_counterexample :
    serializeTree tT8 ∈ (makeTree fs8 st8 (serializeTree t8) (str "/") [str "/b"]).1.loads ∧
    (makeTree fs8 st8 (serializeTree t8) (str "/") [str "/b"]).2 =
      .ok (serializeTree [aDir8, b8new]) := by
  rw [run8]
  exact ⟨by decide, rfl⟩

/-- C8 amended: a subtree is skipped only when no unconsumed change path at
all is left in the invocation that reaches its node; otherwise even a
subtree containing no change path is loaded, re-serialized and re-saved —
the auxiliary blob is written again — although content addressing makes the
recomputed identifier equal to the prior one, so the directory node in the
new tree still carries the identical subtree identifier. -/
theorem claim8_amended :
    (makeTree fs8 st8 (serializeTree t8) (str "/") [str "/b"]).2 =
      .ok (serializeTree [aDir8, b8new]) ∧
    aDir8.subtree = some (serializeTree tT8) ∧
    lk (makeTree fs8 st8 (serializeTree t8) (str "/") [str "/b"]).1.trees
      (serializeTree [aDir8, b8new]) = some [aDir8, b8new] ∧
    serializeTree tT8 ∈ (makeTree fs8 st8 (serializeTree t8) (str "/") [str "/b"]).1.loads ∧
    serializeTree tT8 ∈ (makeTree fs8 st8 (serializeTree t8) (str "/") [str "/b"]).1.unpacked := by
  rw [run8]
  exact ⟨rfl, rfl, by decide, by decide, by decide⟩

/-- C9: when both the change-path options and the metadata input are empty,
runIncremental fails with NothingToDo and the world is returned untouched —
no repository opened, no lock taken, no index or snapshot read, nothing
written. -/
theorem claim9_nothing_to_do (opts : IncrementalOptions) (w : World)
    (h1 : opts.patterns.Empty = true) (h2 : opts.Metadata.empty = true) :
    runIncremental opts w = (w, .error .nothingToDo) := by
  unfold runIncremental
  rw [if_pos (by simp [h1, h2])]

theorem claim9_witness :
    runIncremental ⟨⟨none, none⟩, ⟨[], [], [], []⟩⟩
      ⟨false, false, false, false, ⟨[], [], []⟩, 0⟩ =
      (⟨false, false, false, false, ⟨[], [], []⟩, 0⟩, .error .nothingToDo) :=
  claim9_nothing_to_do ⟨⟨none, none⟩, ⟨[], [], [], []⟩⟩
    ⟨false, false, false, false, ⟨[], [], []⟩, 0⟩ (by decide) (by decide)

/-! ## Blank change paths are inert (C10 machinery) -/

/-- Every blank path in the flag list is already marked removed. -/
def BlankFlagged (fl : List (Str × Bool)) : Prop :=
  ∀ pb ∈ fl, pb.1 = [] → pb.2 = true

/-- Drop the blank-path entries of a flag list. -/
def eraseBlank (fl : List (Str × Bool)) : List (Str × Bool) :=
  fl.filter (fun pb => !pb.1.isEmpty)

theorem BlankFlagged_of_step {fl fl' : List (Str × Bool)} (hB : BlankFlagged fl)
    (hrel : List.Forall₂ FlagStep fl fl') : BlankFlagged fl' := by
  induction hrel with
  | nil => intro pb h; cases h
  | @cons a b l₁ l₂ hab _ ih =>
    intro pb hpb hblank
    rcases List.mem_cons.mp hpb with rfl | hpb
    · obtain ⟨hpq, himp⟩ := hab
      by_contra hfalse
      have hb2 : pb.2 = false := by
        cases h2 : pb.2
        · rfl
        · exact absurd h2 hfalse
      have ha2 : a.2 = false := himp hb2
      have : a.2 = true := hB a (by simp) (by rw [hpq]; exact hblank)
      rw [this] at ha2
      cases ha2
    · exact ih (fun pb h => hB pb (by simp [h])) pb hpb hblank

theorem liveOf_allRemoved {fl : List (Str × Bool)} (h : ∀ pb ∈ fl, pb.2 = true) :
    liveOf fl = [] := by
  unfold liveOf
  have : fl.filter (fun pb => !pb.2) = [] := by
    rw [List.filter_eq_nil]
    intro pb hpb
    rw [h pb hpb]
    simp
  rw [this]
  rfl

theorem liveOf_eraseBlank {fl : List (Str × Bool)} (h : BlankFlagged fl) :
    liveOf (eraseBlank fl) = liveOf fl := by
  induction fl with
  | nil => rfl
  | cons pb rest ih =>
    obtain ⟨p, b⟩ := pb
    have hrest : BlankFlagged rest := fun q hq => h q (by simp [hq])
    by_cases hpe : p = []
    · subst hpe
      have hb : b = true := h ([], b) (by simp) rfl
      subst hb
      have : eraseBlank (([], true) :: rest) = eraseBlank rest := by
        simp [eraseBlank]
      rw [this, liveOf_cons_true]
      exact ih hrest
    · have : eraseBlank ((p, b) :: rest) = (p, b) :: eraseBlank rest := by
        simp [eraseBlank, List.isEmpty_iff, hpe]
      rw [this]
      cases b with
      | true => rw [liveOf_cons_true, liveOf_cons_true]; exact ih hrest
      | false => rw [liveOf_cons_false, liveOf_cons_false, ih hrest]

theorem consFlag_erase_comm {p : Str} {b : Bool} (hpe : p ≠ [])
    (r : Except MErr (List (Str × Bool) × Bool × List Node × Tree)) :
    (match consFlag (p, b) r with
     | .error e => .error e
     | .ok (fl', s, bb, t) => .ok (eraseBlank fl', s, bb, t)) =
    consFlag (p, b) (match r with
     | .error e => (.error e : Except MErr (List (Str × Bool) × Bool × List Node × Tree))
     | .ok (fl', s, bb, t) => .ok (eraseBlank fl', s, bb, t)) := by
  cases r with
  | error e => rfl
  | ok q =>
    obtain ⟨fl', s, bb, t⟩ := q
    simp only [consFlag]
    have : eraseBlank ((p, b) :: fl') = (p, b) :: eraseBlank fl' := by
      simp [eraseBlank, List.isEmpty_iff, hpe]
    rw [this]

theorem consFlag_erase_blank
    (r : Except MErr (List (Str × Bool) × Bool × List Node × Tree)) :
    (match consFlag (([] : Str), true) r with
     | .error e => .error e
     | .ok (fl', s, bb, t) => .ok (eraseBlank fl', s, bb, t)) =
    (match r with
     | .error e => (.error e : Except MErr (List (Str × Bool) × Bool × List Node × Tree))
     | .ok (fl', s, bb, t) => .ok (eraseBlank fl', s, bb, t)) := by
  cases r with
  | error e => rfl
  | ok q =>
    obtain ⟨fl', s, bb, t⟩ := q
    simp only [consFlag]
    have : eraseBlank (([], true) :: fl') = eraseBlank fl' := by
      simp [eraseBlank]
    rw [this]

theorem innerLoop_erase (fs : Fs) (dir : Str) (node : Node) :
    ∀ (fl : List (Str × Bool)) (sk : Bool) (tb : List Node) (tr : Tree),
      BlankFlagged fl →
      innerLoop fs dir node (eraseBlank fl) sk tb tr =
        (match innerLoop fs dir node fl sk tb tr with
         | .error e => .error e
         | .ok (fl', s, b, t) => .ok (eraseBlank fl', s, b, t))
  | [], sk, tb, tr, hB => by simp [innerLoop, eraseBlank]
  | (p, rm) :: rest, sk, tb, tr, hB => by
    have hBr : BlankFlagged rest := fun pb hpb => hB pb (by simp [hpb])
    by_cases hpe : p = []
    · subst hpe
      have hrm : rm = true := hB ([], rm) (by simp) rfl
      subst hrm
      have he : eraseBlank (([], true) :: rest) = eraseBlank rest := by
        simp [eraseBlank]
      rw [he]
      rw [innerLoop_erase fs dir node rest sk tb tr hBr]
      conv_rhs => rw [innerLoop]
      rw [if_pos rfl]
      rw [consFlag_erase_blank]
    · have he : eraseBlank ((p, rm) :: rest) = (p, rm) :: eraseBlank rest := by
        simp [eraseBlank, List.isEmpty_iff, hpe]
      rw [he]
      conv_lhs => rw [innerLoop]
      conv_rhs => rw [innerLoop]
      cases rm with
      | true =>
        rw [if_pos rfl, if_pos rfl]
        rw [consFlag_erase_comm hpe]
        rw [innerLoop_erase fs dir node rest sk tb tr hBr]
      | false =>
        simp only [Bool.false_eq_true, hpe, if_false]
        by_cases hm : dir ++ node.name = p
        · rw [if_pos hm, if_pos hm]
          cases lk fs p with
          | none =>
            rw [consFlag_erase_comm hpe]
            rw [innerLoop_erase fs dir node rest true tb tr hBr]
          | some fi =>
            cases addNode fs p tb tr with
            | error e => rfl
            | ok q =>
              obtain ⟨tb2, tr2⟩ := q
              simp only []
              rw [consFlag_erase_comm hpe]
              rw [innerLoop_erase fs dir node rest true tb2 tr2 hBr]
        · rw [if_neg hm, if_neg hm]
          by_cases hc : sk = true ∨
              (goDir (dir ++ node.name) = goDir p ∧ goBase p < node.name)
          · rw [if_pos hc, if_pos hc]
            cases addNode fs p tb tr with
            | error e => rfl
            | ok q =>
              obtain ⟨tb2, tr2⟩ := q
              simp only []
              rw [consFlag_erase_comm hpe]
              rw [innerLoop_erase fs dir node rest sk tb2 tr2 hBr]
          · rw [if_neg hc, if_neg hc]
            rw [consFlag_erase_comm hpe]
            rw [innerLoop_erase fs dir node rest sk tb tr hBr]

theorem goNodes_erase (fs : Fs) (dir : Str) :
    ∀ (ns : List Node) (st : St) (fl : List (Str × Bool)) (tb : List Node) (tr : Tree),
      BlankFlagged fl →
      goNodes fs st dir ns (eraseBlank fl) tb tr = goNodes fs st dir ns fl tb tr
  | [], st, fl, tb, tr, hB => by rw [goNodes_nil, goNodes_nil]
  | node :: rest, st, fl, tb, tr, hB => by
    have hIL := innerLoop_erase fs dir node fl false tb tr hB
    rw [goNodes.eq_def fs st dir (node :: rest) (eraseBlank fl) tb tr]
    rw [goNodes.eq_def fs st dir (node :: rest) fl tb tr]
    simp only []
    cases hres : innerLoop fs dir node fl false tb tr with
    | error e =>
      rw [hres] at hIL
      simp only [] at hIL
      cases hres2 : innerLoop fs dir node (eraseBlank fl) false tb tr with
      | error e2 =>
        rw [hres2] at hIL
        injection hIL with h
        subst h
        rfl
      | ok q2 =>
        rw [hres2] at hIL
        exact nomatch hIL
    | ok q =>
      obtain ⟨fl', sk, tb1, tr1⟩ := q
      rw [hres] at hIL
      simp only [] at hIL
      cases hres2 : innerLoop fs dir node (eraseBlank fl) false tb tr with
      | error e2 =>
        rw [hres2] at hIL
        exact nomatch hIL
      | ok q2 =>
        rw [hres2] at hIL
        injection hIL with h
        subst h
        have hB' : BlankFlagged fl' :=
          BlankFlagged_of_step hB (innerLoop_flagStep fs dir node fl false tb tr fl' sk tb1 tr1 hres)
        simp only []
        cases sk with
        | true =>
          rw [if_pos rfl, if_pos rfl]
          exact goNodes_erase fs dir rest st fl' tb1 tr1 hB'
        | false =>
          simp only [Bool.false_eq_true, if_false]
          by_cases hty : node.typ ≠ dirT
          · rw [if_pos hty, if_pos hty]
            cases insertNode node tr1 with
            | error e => rfl
            | ok tree2 =>
              exact goNodes_erase fs dir rest st fl' (tb1 ++ [node]) tree2 hB'
          · rw [if_neg hty, if_neg hty]
            rw [liveOf_eraseBlank hB']
            cases makeTree fs st (node.subtree.getD []) (dir ++ node.name ++ ['/'])
                (sortIns (liveOf fl')) with
            | mk st2 res2 =>
              cases res2 with
              | error e => rfl
              | ok newID =>
                simp only []
                cases insertNode { node with subtree := some newID } tr1 with
                | error e => rfl
                | ok tree2 =>
                  simp only []
                  by_cases hrest : rest.isEmpty = true
                  · rw [if_pos hrest, if_pos hrest]
                    cases appendLoop fs (dir ++ node.name) (sortIns (liveOf fl'))
                        (tb1 ++ [{ node with subtree := some newID }]) tree2 with
                    | error e => rfl
                    | ok q2 =>
                      obtain ⟨tb3, tree3⟩ := q2
                      exact goNodes_erase fs dir rest st2 fl' tb3 tree3 hB'
                  · rw [if_neg hrest, if_neg hrest]
                    exact goNodes_erase fs dir rest st2 fl'
                      (tb1 ++ [{ node with subtree := some newID }]) tree2 hB'

theorem initFlags_erase (dir : Str) (l : List Str) :
    eraseBlank (initFlags dir l) = initFlags dir (l.filter (fun p => !p.isEmpty)) := by
  induction l with
  | nil => rfl
  | cons p rest ih =>
    by_cases hpe : p = []
    · subst hpe
      have h1 : eraseBlank (initFlags dir ([] :: rest)) = eraseBlank (initFlags dir rest) := by
        simp [initFlags, eraseBlank]
      have h2 : ([] :: rest).filter (fun p => !p.isEmpty) =
          rest.filter (fun p => !p.isEmpty) := by simp
      rw [h1, h2, ih]
    · have h1 : eraseBlank (initFlags dir (p :: rest)) =
          (p, !dir.isPrefixOf p) :: eraseBlank (initFlags dir rest) := by
        simp [initFlags, eraseBlank, List.isEmpty_iff, hpe]
      have h2 : (p :: rest).filter (fun q => !q.isEmpty) =
          p :: rest.filter (fun q => !q.isEmpty) := by
        simp [List.isEmpty_iff, hpe]
      rw [h1, h2, ih]
      rfl

theorem BlankFlagged_initFlags {dir : Str} (hdir : dir ≠ []) (l : List Str) :
    BlankFlagged (initFlags dir l) := by
  intro pb hpb hblank
  unfold initFlags at hpb
  obtain ⟨p, hp, rfl⟩ := List.mem_map.mp hpb
  simp only [] at hblank
  subst hblank
  have : dir.isPrefixOf ([] : Str) = false := by
    cases hd : dir with
    | nil => exact absurd hd hdir
    | cons c cs => rfl
  simp [this]

theorem makeTree_blank_sim (fs : Fs) (st : St) (id dir : Str) (l : List Str)
    (hdir : dir ≠ []) (hl0 : l.isEmpty = false)
    (hfe : (l.filter (fun p => !p.isEmpty)).isEmpty = false) :
    makeTree fs st id dir l = makeTree fs st id dir (l.filter (fun p => !p.isEmpty)) := by
  rw [makeTree_cons_eq fs st id dir l hl0]
  rw [makeTree_cons_eq fs st id dir (l.filter (fun p => !p.isEmpty)) hfe]
  rcases hLT : loadTree st id with ⟨st1, res⟩
  cases res with
  | error e => rfl
  | ok curTree =>
    simp only []
    rw [← initFlags_erase]
    rw [goNodes_erase fs dir curTree st1 (initFlags dir l) [] []
      (BlankFlagged_initFlags hdir l)]

/-! ## Rebuild identity for fully removed flag lists (C10 machinery) -/

theorem innerLoop_allRemoved (fs : Fs) (dir : Str) (node : Node) :
    ∀ (fl : List (Str × Bool)) (sk : Bool) (tb : List Node) (tr : Tree),
      (∀ pb ∈ fl, pb.2 = true) →
      innerLoop fs dir node fl sk tb tr = .ok (fl, sk, tb, tr)
  | [], sk, tb, tr, h => rfl
  | (p, rm) :: rest, sk, tb, tr, h => by
    have hrm : rm = true := h (p, rm) (by simp)
    subst hrm
    rw [innerLoop]
    rw [if_pos rfl]
    rw [innerLoop_allRemoved fs dir node rest sk tb tr (fun pb hpb => h pb (by simp [hpb]))]
    rfl

theorem insertNode_append {n : Node} :
    ∀ {tr : Tree}, (∀ m ∈ tr, m.name < n.name) → insertNode n tr = .ok (tr ++ [n])
  | [], _ => rfl
  | m :: rest, h => by
    have hm : m.name < n.name := h m (by simp)
    rw [insertNode]
    rw [if_neg (by exact fun hlt => absurd (lt_trans hm hlt) (lt_irrefl _))]
    rw [if_neg (by intro he; rw [he] at hm; exact lt_irrefl _ hm)]
    rw [insertNode_append (fun q hq => h q (by simp [hq]))]
    rfl

theorem node_eta {node : Node} {s : Str} (h : node.subtree = some s) :
    { node with subtree := some s } = node := by
  cases node
  simp only [] at h
  simp [h]

theorem appendLoop_nil (fs : Fs) (dnp : Str) (tb : List Node) (tr : Tree) :
    appendLoop fs dnp [] tb tr = .ok (tb, tr) := rfl

theorem sortIns_nil : sortIns [] = [] := rfl

theorem goNodes_rebuild (fs : Fs) (dir : Str) :
    ∀ (ns : List Node) (st : St) (fl : List (Str × Bool)) (tb : List Node) (tr : Tree),
      (∀ pb ∈ fl, pb.2 = true) →
      (∀ n ∈ ns, n.typ = dirT → n.subtree ≠ none) →
      strictSorted (tr ++ ns) →
      goNodes fs st dir ns fl tb tr = (st, .ok (tb ++ ns, tr ++ ns))
  | [], st, fl, tb, tr, hfl, hdirs, hsort => by
    rw [goNodes_nil]
    simp
  | node :: rest, st, fl, tb, tr, hfl, hdirs, hsort => by
    have hlt : ∀ m ∈ tr, m.name < node.name := by
      intro m hm
      have := (List.pairwise_append.mp hsort).2.2 m hm node (by simp)
      exact this
    have hsort2 : strictSorted ((tr ++ [node]) ++ rest) := by
      rw [List.append_assoc]
      simpa using hsort
    have hdirs2 : ∀ n ∈ rest, n.typ = dirT → n.subtree ≠ none :=
      fun n hn => hdirs n (by simp [hn])
    rw [goNodes.eq_def]
    simp only []
    rw [innerLoop_allRemoved fs dir node fl false tb tr hfl]
    simp only []
    rw [if_neg (by simp)]
    by_cases hty : node.typ ≠ dirT
    · rw [if_pos hty]
      rw [insertNode_append hlt]
      simp only []
      rw [goNodes_rebuild fs dir rest st fl (tb ++ [node]) (tr ++ [node]) hfl hdirs2 hsort2]
      simp
    · rw [if_neg hty]
      have hsub : node.subtree ≠ none := hdirs node (by simp) (by simpa using hty)
      obtain ⟨s, hs⟩ : ∃ s, node.subtree = some s := by
        cases hx : node.subtree with
        | none => exact absurd hx hsub
        | some s => exact ⟨s, rfl⟩
      have hlive : liveOf fl = [] := liveOf_allRemoved hfl
      rw [hlive, sortIns_nil, hs]
      simp only [Option.getD_some]
      rw [makeTree_nil]
      simp only []
      rw [node_eta hs]
      rw [insertNode_append hlt]
      simp only []
      by_cases hrest : rest.isEmpty = true
      · rw [if_pos hrest]
        rw [appendLoop_nil]
        simp only []
        rw [goNodes_rebuild fs dir rest st fl (tb ++ [node]) (tr ++ [node]) hfl hdirs2 hsort2]
        simp
      · rw [if_neg hrest]
        rw [goNodes_rebuild fs dir rest st fl (tb ++ [node]) (tr ++ [node]) hfl hdirs2 hsort2]
        simp

theorem saveTree_fst_present {st : St} {t : Tree} {u : Tree}
    (h : lk st.trees (serializeTree t) = some u) : (saveTree st t).1 = st := by
  rw [saveTree_eq]
  rw [h]

theorem makeTree_allBlank (fs : Fs) (st : St) (id dir : Str) (l : List Str) (t : Tree)
    (hdir : dir ≠ []) (hne : l.isEmpty = false) (hblank : ∀ p ∈ l, p = [])
    (hlk : lk st.trees id = some t) (hsort : strictSorted t)
    (hdirs : ∀ n ∈ t, n.typ = dirT → n.subtree ≠ none) (hid : serializeTree t = id) :
    (makeTree fs st id dir l).2 = .ok id ∧
    lk (makeTree fs st id dir l).1.trees id = some t := by
  have hfl : ∀ pb ∈ initFlags dir l, pb.2 = true := by
    intro pb hpb
    unfold initFlags at hpb
    obtain ⟨p, hp, rfl⟩ := List.mem_map.mp hpb
    have : p = [] := hblank p hp
    subst this
    have : dir.isPrefixOf ([] : Str) = false := by
      cases hd : dir with
      | nil => exact absurd hd hdir
      | cons c cs => rfl
    simp [this]
  rw [makeTree_cons_eq fs st id dir l hne, loadTree_some hlk]
  simp only []
  rw [goNodes_rebuild fs dir t { st with loads := id :: st.loads } (initFlags dir l) [] []
    hfl hdirs (by simpa using hsort)]
  simp only [List.nil_append]
  have hp1 : lk ({ st with loads := id :: st.loads } : St).trees (serializeTree t) = some t := by
    rw [hid]
    exact hlk
  constructor
  · rw [saveTree_snd, hid]
  · show lk (saveTree { st with loads := id :: st.loads } t).1.trees id = some t
    rw [saveTree_fst_present hp1]
    rw [hid] at hp1
    exact hp1

/-- The tree behind the identifier a merge run returns, when it succeeded. -/
def retTree (r : St × Except MErr Str) : Option Tree :=
  match r.2 with
  | .ok i => lk r.1.trees i
  | .error _ => none

/-- C10: an empty-string entry in the change-path list has no effect: for a
well-formed prior tree (stored under its content identifier, sorted, every
directory node carrying a subtree reference) and a nonempty directory, the
merge returns the same identifier and the same tree behind it as the merge
over the list with all empty strings removed. -/
theorem claim10_blank_inert (fs : Fs) (st : St) (id dir : Str) (l : List Str) (t : Tree)
    (hdir : dir ≠ []) (hlk : lk st.trees id = some t) (hsort : strictSorted t)
    (hdirs : ∀ n ∈ t, n.typ = dirT → n.subtree ≠ none) (hid : serializeTree t = id) :
    (makeTree fs st id dir l).2 =
      (makeTree fs st id dir (l.filter (fun p => !p.isEmpty))).2 ∧
    retTree (makeTree fs st id dir l) =
      retTree (makeTree fs st id dir (l.filter (fun p => !p.isEmpty))) := by
  by_cases hfe : (l.filter (fun p => !p.isEmpty)).isEmpty = true
  · have hfilter : l.filter (fun p => !p.isEmpty) = [] := by
      rwa [List.isEmpty_iff] at hfe
    by_cases hl0 : l.isEmpty = true
    · have : l = [] := by rwa [List.isEmpty_iff] at hl0
      subst this
      rw [hfilter]
      exact ⟨rfl, rfl⟩
    · have hblank : ∀ p ∈ l, p = [] := by
        intro p hp
        by_contra hpe
        have : p ∈ l.filter (fun q => !q.isEmpty) := by
          rw [List.mem_filter]
          exact ⟨hp, by simp [List.isEmpty_iff, hpe]⟩
        rw [hfilter] at this
        cases this
      have hmb := makeTree_allBlank fs st id dir l t hdir
        (by cases hx : l with
            | nil => rw [hx] at hl0; simp at hl0
            | cons a as => rfl)
        hblank hlk hsort hdirs hid
      rw [hfilter, makeTree_nil]
      refine ⟨by rw [hmb.1], ?_⟩
      unfold retTree
      rw [hmb.1]
      simp only []
      rw [hmb.2]
      exact hlk.symm
  · have hl0 : l.isEmpty = false := by
      cases hx : l with
      | nil => rw [hx] at hfe; simp at hfe
      | cons a as => rfl
    rw [makeTree_blank_sim fs st id dir l hdir hl0 (by simpa using hfe)]
    exact ⟨rfl, rfl⟩

theorem claim10_witness :
    (makeTree fs7 st7 (serializeTree t7) (str "/x/") [[], str "/x/c"]).2 =
      (makeTree fs7 st7 (serializeTree t7) (str "/x/")
        ([[], str "/x/c"].filter (fun p => !p.isEmpty))).2 ∧
    retTree (makeTree fs7 st7 (serializeTree t7) (str "/x/") [[], str "/x/c"]) =
      retTree (makeTree fs7 st7 (serializeTree t7) (str "/x/")
        ([[], str "/x/c"].filter (fun p => !p.isEmpty))) :=
  claim10_blank_inert fs7 st7 (serializeTree t7) (str "/x/") [[], str "/x/c"] t7
    (by decide) (by decide) (by decide) (by decide) (by decide)

/-- Sanity checks of the path model against Go behavior on edge cases. -/
theorem goPath_edge_cases :
    goDir (str "") = str "." ∧ goDir (str "/") = str "/" ∧
    goBase (str "") = str "." ∧ goBase (str "/") = str "/" ∧
    goClean (str "/x/") = str "/x" ∧ goDir (str "/x//b") = str "/x" ∧
    goDir (str "a") = str "." ∧ goDir (str "/a/b/") = str "/a/b" ∧
    goClean (str "a/b/..") = str "a" ∧ goClean (str "../a") = str "../a" ∧
    goClean (str "/../a") = str "/a" ∧ goBase (str "/x//") = str "x" := by
  decide

end Restic
